import Mathlib

/-
Verification of the multi-level page-table core in src/pt.c.

Shallow embedding. Physical memory is modelled at page-frame granularity:
a memory is a function from (physical page number, entry index) to the
64-bit entry stored there (as a Nat; every value the code stores is
reduced mod 2^64, matching uint64_t arithmetic). The external collaborator
phys_to_virt, which turns the byte address held in a pointer entry into a
dereferenceable node view, is modelled by dividing the byte address by
4096 to recover the frame number; alloc_page_frame is modelled by a
counter in the state (the allocator contract: fresh, zero-initialized,
exclusively owned frames). NO_MAPPING is an os.h constant not present in
src, so it is carried as an explicit parameter nm; the spec only requires
it to be a reserved sentinel distinct from any allocatable PPN.

The C for-loops (for i = 1; i < 5; i++) walk the four pointer levels with
the 9-bit index groups of the VPN at shifts 36, 27, 18, 9, and then touch
the terminal entry at shift 0. They are embedded as structural recursion
over the list of the four pointer-level indices, with the terminal index
passed separately, exactly mirroring the source control flow including
the early break of destroy and the early return of query.
-/

namespace PT

/-- Physical memory: frame number and entry index to stored 64-bit word. -/
abbrev Mem := Nat → Nat → Nat

/-- Machine state threaded through create: the memory plus the allocator
counter. alloc_page_frame returns next and bumps the counter. -/
structure PTState where
  mem : Mem
  next : Nat

/-- Store value v into entry i of frame f. -/
def write (m : Mem) (f i v : Nat) : Mem :=
  fun g j => if g = f then (if j = i then v else m g j) else m g j

/-- One 9-bit index group of the VPN: (vpn >> k) & 0x1ff, from the source
macro EXTRACT_9BITS. -/
def idx (vpn k : Nat) : Nat := (vpn >>> k) &&& 511

/-- The four pointer-level indices of a VPN, most significant first,
as produced by the loop pte = (vpn >> (36 - i*9)) & EXTRACT_9BITS. -/
def ixs (vpn : Nat) : List Nat := [idx vpn 36, idx vpn 27, idx vpn 18, idx vpn 9]

/-- Read-only descent through pointer entries: from frame f, follow the
entry at each listed index. An entry with clear LSB aborts the walk
(none); a set LSB dereferences phys_to_virt(entry - 1), i.e. frame
(entry - 1) / 4096. -/
def walk (m : Mem) : Nat → List Nat → Option Nat
  | f, [] => some f
  | f, i :: is => if m f i % 2 = 0 then none else walk m ((m f i - 1) / 4096) is

/-- Resolution of a trie position: pointer walk along is, then the
terminal entry at index lf: some ppn when its valid bit is set, none
otherwise. -/
def queryA (m : Mem) (f : Nat) (is : List Nat) (lf : Nat) : Option Nat :=
  match walk m f is with
  | none => none
  | some g => if m g lf % 2 = 1 then some (m g lf >>> 12) else none

/-- Loop body of destroy_virtual_memory_mapping: break on an invalid
pointer entry and zero the slot where the walk stopped, otherwise
descend; after the four pointer levels, zero the terminal entry at lf. -/
def destroyGo (lf : Nat) (m : Mem) : Nat → List Nat → Mem
  | f, [] => write m f lf 0
  | f, i :: is =>
    if m f i % 2 = 0 then write m f i 0
    else destroyGo lf m ((m f i - 1) / 4096) is

/-- Source function destroy_virtual_memory_mapping(root_pt, vpn). -/
def destroy_virtual_memory_mapping (m : Mem) (root_pt vpn : Nat) : Mem :=
  destroyGo (idx vpn 0) m root_pt (ixs vpn)

/-- Loop body of create_virtual_memory_mapping: on an invalid pointer
entry, store (alloc_page_frame() << 12) + 1 and re-read the slot; then
descend through (entry - 1); after the four pointer levels, store
(ppn << 12) + 1 into the terminal entry at lf. All stores are uint64_t,
hence reduced mod 2^64. -/
def createGo (ppn lf : Nat) : PTState → Nat → List Nat → PTState
  | st, f, [] => ⟨write st.mem f lf ((ppn <<< 12 + 1) % 2 ^ 64), st.next⟩
  | st, f, i :: is =>
    if st.mem f i % 2 = 0 then
      let m1 := write st.mem f i ((st.next <<< 12 + 1) % 2 ^ 64)
      createGo ppn lf ⟨m1, st.next + 1⟩ ((m1 f i - 1) / 4096) is
    else
      createGo ppn lf st ((st.mem f i - 1) / 4096) is

/-- Source function create_virtual_memory_mapping(root_pt, vpn, ppn). -/
def create_virtual_memory_mapping (st : PTState) (root_pt vpn ppn : Nat) : PTState :=
  createGo ppn (idx vpn 0) st root_pt (ixs vpn)

/-- Source function page_table_update(pt, vpn, ppn): dispatch on the
NO_MAPPING sentinel nm. The root frame is pt, via phys_to_virt(pt << 12). -/
def page_table_update (nm : Nat) (st : PTState) (pt vpn ppn : Nat) : PTState :=
  if ppn = nm then ⟨destroy_virtual_memory_mapping st.mem pt vpn, st.next⟩
  else create_virtual_memory_mapping st pt vpn ppn

/-- Source function page_table_query(pt, vpn): walk the four pointer
levels read-only, returning nm on any invalid pointer entry; then return
entry >> 12 if the terminal valid bit is set, else nm. -/
def page_table_query (nm : Nat) (m : Mem) (pt vpn : Nat) : Nat :=
  match walk m pt (ixs vpn) with
  | none => nm
  | some g => if m g (idx vpn 0) % 2 = 1 then m g (idx vpn 0) >>> 12 else nm

/-- State-threading rendering of the query walk, used to express that the
query path performs no store: the memory is passed through every step
and returned alongside the result. -/
def querySGo (nm : Nat) (lf : Nat) : Mem → Nat → List Nat → Mem × Nat
  | m, f, [] => if m f lf % 2 = 1 then (m, m f lf >>> 12) else (m, nm)
  | m, f, i :: is =>
    if m f i % 2 = 0 then (m, nm) else querySGo nm lf m ((m f i - 1) / 4096) is

/-- State-threading page_table_query: returns the final memory together
with the queried value. -/
def queryS (nm : Nat) (m : Mem) (pt vpn : Nat) : Mem × Nat :=
  querySGo nm (idx vpn 0) m pt (ixs vpn)

/-- Pure value computed by the query walk from frame f along pointer
indices is with terminal index lf; page_table_query instantiates it at
the index groups of a VPN. -/
def queryPure (nm : Nat) (m : Mem) (f : Nat) (is : List Nat) (lf : Nat) : Nat :=
  match walk m f is with
  | none => nm
  | some g => if m g lf % 2 = 1 then m g lf >>> 12 else nm

/-- Number of executed iterations of the query loop, including the
iteration that discovers an invalid entry and returns early. -/
def queryIters (m : Mem) : Nat → List Nat → Nat
  | _, [] => 0
  | f, i :: is =>
    if m f i % 2 = 0 then 1 else 1 + queryIters m ((m f i - 1) / 4096) is

/-- Number of executed iterations of the destroy loop, including the
iteration that discovers an invalid entry and breaks. -/
def destroyIters (m : Mem) : Nat → List Nat → Nat
  | _, [] => 0
  | f, i :: is =>
    if m f i % 2 = 0 then 1 else 1 + destroyIters m ((m f i - 1) / 4096) is

/-- Instrumented create loop: the resulting state together with the
number of executed loop iterations. -/
def createGoN (ppn lf : Nat) : PTState → Nat → List Nat → PTState × Nat
  | st, f, [] => (⟨write st.mem f lf ((ppn <<< 12 + 1) % 2 ^ 64), st.next⟩, 0)
  | st, f, i :: is =>
    if st.mem f i % 2 = 0 then
      let m1 := write st.mem f i ((st.next <<< 12 + 1) % 2 ^ 64)
      let r := createGoN ppn lf ⟨m1, st.next + 1⟩ ((m1 f i - 1) / 4096) is
      (r.1, 1 + r.2)
    else
      let r := createGoN ppn lf st ((st.mem f i - 1) / 4096) is
      (r.1, 1 + r.2)

/-- Well-formed entry of the on-disk layout, at any level: all zero, or
valid bit set with a 52-bit page number in bits 12 to 63 and bits 1 to 11
clear, i.e. of the form n * 4096 + 1. -/
def entryOk (e : Nat) : Prop := e = 0 ∨ ∃ n, n < 2 ^ 52 ∧ e = n * 4096 + 1

/-- Well-formed pointer entry with respect to an allocation bound: all
zero, or a valid pointer to an already-allocated frame. -/
def ptrOk (next e : Nat) : Prop :=
  e = 0 ∨ ∃ g, g < next ∧ g < 2 ^ 52 ∧ e = g * 4096 + 1

/-- Pointwise layout invariant of claim C10: every entry anywhere in
memory is well formed. -/
def EntriesOk (m : Mem) : Prop := ∀ f i, entryOk (m f i)

/-- Frame g is reachable from frame f by a pointer walk of at most d
steps. -/
abbrev reach (m : Mem) (f d g : Nat) : Prop :=
  ∃ p : List Nat, p.length ≤ d ∧ walk m f p = some g

/-- Structural invariant of a table of depth d rooted at frame f:
the root is allocated, unallocated frames are all zero, every node on a
pointer level holds well-formed pointer entries into allocated frames,
every node on the terminal level holds well-formed entries, and the
radix structure is a tree: distinct descent paths reach distinct frames. -/
structure Sub (st : PTState) (f : Nat) (d : Nat) : Prop where
  fz : ∀ g i, st.next ≤ g → st.mem g i = 0
  fl : f < st.next
  ptr : ∀ p g, p.length + 1 ≤ d → walk st.mem f p = some g → ∀ i, ptrOk st.next (st.mem g i)
  leaf : ∀ p g, p.length = d → walk st.mem f p = some g → ∀ i, entryOk (st.mem g i)
  inj : ∀ p q g, p.length ≤ d → q.length ≤ d → walk st.mem f p = some g →
    walk st.mem f q = some g → p = q

/-- Invariant of a five-level root table: depth-4 pointer structure. -/
def Inv (st : PTState) (root : Nat) : Prop := Sub st root 4

/-- Combined specification of one createGo run from frame f along the
pointer indices is with terminal index lf: allocation-counter bounds,
the round-trip read-back, non-interference with every other trie
position, preservation of unreachable allocated frames, a bound on the
frames reachable afterwards, and preservation of the structural
invariant. -/
def MasterConcl (ppn lf : Nat) (is : List Nat) (st : PTState) (f : Nat) : Prop :=
  (st.next ≤ (createGo ppn lf st f is).next ∧
      (createGo ppn lf st f is).next ≤ st.next + is.length)
    ∧ queryA (createGo ppn lf st f is).mem f is lf = some (ppn % 2 ^ 52)
    ∧ (∀ js lg, js.length = is.length → js ≠ is ∨ lg ≠ lf →
        queryA (createGo ppn lf st f is).mem f js lg = queryA st.mem f js lg)
    ∧ (∀ g j, g < st.next → ¬ reach st.mem f is.length g →
        (createGo ppn lf st f is).mem g j = st.mem g j)
    ∧ (∀ g, reach (createGo ppn lf st f is).mem f is.length g →
        reach st.mem f is.length g ∨
          st.next ≤ g ∧ g < (createGo ppn lf st f is).next)
    ∧ Sub (createGo ppn lf st f is) f is.length

/-- The all-zero memory of a freshly allocated root table. -/
def mem0 : Mem := fun _ _ => 0

/-- Initial state: root frame 0 just allocated, allocator counter at 1. -/
def st0 : PTState := ⟨mem0, 1⟩

theorem write_same (m : Mem) (f i v : Nat) : write m f i v f i = v := by
  simp [write]

theorem write_ne (m : Mem) (f i v g j : Nat) (h : g ≠ f ∨ j ≠ i) :
    write m f i v g j = m g j := by
  rcases h with h | h <;> simp [write, h]

theorem write_id (m : Mem) (f i : Nat) (h : m f i = 0) : write m f i 0 = m := by
  funext g j
  simp only [write]
  by_cases hg : g = f
  · subst hg
    by_cases hj : j = i
    · subst hj; simp [h]
    · simp [hj]
  · simp [hg]

theorem write_write (m : Mem) (f i v w : Nat) :
    write (write m f i v) f i w = write m f i w := by
  funext g j
  by_cases hg : g = f
  · by_cases hj : j = i
    · subst hg; subst hj; simp [write_same]
    · simp [write, hj]
  · simp [write, hg]

theorem walk_nil (m : Mem) (f : Nat) : walk m f [] = some f := rfl

theorem walk_cons (m : Mem) (f i : Nat) (is : List Nat) :
    walk m f (i :: is) =
      if m f i % 2 = 0 then none else walk m ((m f i - 1) / 4096) is := rfl

theorem store_eq (p : Nat) : (p <<< 12 + 1) % 2 ^ 64 = p % 2 ^ 52 * 4096 + 1 := by
  have hx : p <<< 12 = 4096 * p := by rw [Nat.shiftLeft_eq]; ring
  have h64 : (2 : Nat) ^ 64 = 4096 * 2 ^ 52 := by norm_num
  rw [hx, h64, Nat.mod_mul, Nat.mul_add_mod, Nat.mul_add_div (by norm_num)]
  norm_num
  ring

theorem entry_form_odd (n e : Nat) (h : e = n * 4096 + 1) : e % 2 = 1 := by omega

theorem entry_form_decode (n e : Nat) (h : e = n * 4096 + 1) : (e - 1) / 4096 = n := by
  omega

theorem entry_form_ppn (n e : Nat) (h : e = n * 4096 + 1) :
    e >>> 12 = n := by
  rw [Nat.shiftRight_eq_div_pow]
  omega

theorem idx_eq_mod (v k : Nat) : idx v k = v / 2 ^ k % 512 := by
  have h511 : (511 : Nat) = 2 ^ 9 - 1 := by norm_num
  rw [idx, Nat.shiftRight_eq_div_pow, h511, Nat.and_pow_two_sub_one_eq_mod]

theorem pow_mod_mul_step (v a : Nat) :
    v % 2 ^ (a + 9) = v % 2 ^ a + 2 ^ a * (v / 2 ^ a % 512) := by
  have h : (2 : Nat) ^ (a + 9) = 2 ^ a * 512 := by rw [pow_add]; norm_num
  rw [h, Nat.mod_mul]

theorem mod45_eq_groups (v : Nat) : v % 2 ^ 45 =
    2 ^ 36 * (v / 2 ^ 36 % 512) + 2 ^ 27 * (v / 2 ^ 27 % 512)
      + 2 ^ 18 * (v / 2 ^ 18 % 512) + 2 ^ 9 * (v / 2 ^ 9 % 512) + v % 512 := by
  have e1 := pow_mod_mul_step v 36
  have e2 := pow_mod_mul_step v 27
  have e3 := pow_mod_mul_step v 18
  have e4 := pow_mod_mul_step v 9
  have e5 := pow_mod_mul_step v 0
  simp only [pow_zero, Nat.div_one, one_mul, Nat.zero_add] at e5
  omega

set_option maxHeartbeats 1600000 in
theorem mod45_iff (v w : Nat) : v % 2 ^ 45 = w % 2 ^ 45 ↔
    (idx v 36 = idx w 36 ∧ idx v 27 = idx w 27 ∧ idx v 18 = idx w 18 ∧
      idx v 9 = idx w 9 ∧ idx v 0 = idx w 0) := by
  have hv := mod45_eq_groups v
  have hw := mod45_eq_groups w
  simp only [idx_eq_mod, pow_zero, Nat.div_one]
  omega

theorem ixs_eq_iff (v w : Nat) : (ixs v = ixs w ∧ idx v 0 = idx w 0) ↔
    v % 2 ^ 45 = w % 2 ^ 45 := by
  rw [mod45_iff]
  simp [ixs]
  tauto

theorem ixs_length (v : Nat) : (ixs v).length = 4 := rfl

theorem queryA_nil (m : Mem) (f lf : Nat) :
    queryA m f [] lf = if m f lf % 2 = 1 then some (m f lf >>> 12) else none := rfl

theorem queryA_cons (m : Mem) (f i : Nat) (is : List Nat) (lf : Nat) :
    queryA m f (i :: is) lf =
      if m f i % 2 = 0 then none else queryA m ((m f i - 1) / 4096) is lf := by
  by_cases h : m f i % 2 = 0 <;> simp [queryA, walk_cons, h]

theorem query_link (nm : Nat) (m : Mem) (pt vpn : Nat) :
    page_table_query nm m pt vpn = (queryA m pt (ixs vpn) (idx vpn 0)).getD nm := by
  rcases hw : walk m pt (ixs vpn) with _ | g
  · simp [page_table_query, queryA, hw]
  · by_cases h : m g (idx vpn 0) % 2 = 1 <;> simp [page_table_query, queryA, hw, h]

theorem walk_append (m : Mem) :
    ∀ (p : List Nat) (q : List Nat) (f : Nat),
      walk m f (p ++ q) = (walk m f p).bind (fun g => walk m g q)
  | [], q, f => rfl
  | i :: p, q, f => by
    by_cases h : m f i % 2 = 0
    · simp [walk_cons, h]
    · simp only [List.cons_append, walk_cons, if_neg h]
      exact walk_append m p q _

theorem walk_congrOn (m m2 : Mem) :
    ∀ (p : List Nat) (f : Nat),
      (∀ q x r g, p = q ++ x :: r → walk m f q = some g → m2 g x = m g x) →
      walk m2 f p = walk m f p
  | [], _, _ => rfl
  | x :: p, f, H => by
    have h0 : m2 f x = m f x := H [] x p f rfl (walk_nil m f)
    by_cases hx : m f x % 2 = 0
    · rw [walk_cons, walk_cons, h0]; simp [hx]
    · rw [walk_cons, walk_cons, h0, if_neg hx, if_neg hx]
      exact walk_congrOn m m2 p ((m f x - 1) / 4096) (fun q x2 r g hq hw =>
        H (x :: q) x2 r g (by rw [hq, List.cons_append]) (by
          rw [walk_cons, if_neg hx]; exact hw))

theorem queryA_congrOn (m m2 : Mem) (p : List Nat) (f lf : Nat)
    (H : ∀ q x r g, p = q ++ x :: r → walk m f q = some g → m2 g x = m g x)
    (H2 : ∀ g, walk m f p = some g → m2 g lf = m g lf) :
    queryA m2 f p lf = queryA m f p lf := by
  have hwk := walk_congrOn m m2 p f H
  rcases h : walk m f p with _ | g
  · simp [queryA, hwk, h]
  · simp [queryA, hwk, h, H2 g h]

theorem ptrOk_entry (st : PTState) (f d i : Nat) (hs : Sub st f d) (hd : 1 ≤ d) :
    ptrOk st.next (st.mem f i) :=
  hs.ptr [] f (by simpa) (walk_nil _ _) i

theorem ptrOk_zero_of_even (next e : Nat) (h : ptrOk next e) (he : e % 2 = 0) :
    e = 0 := by
  rcases h with h | ⟨g, _, _, hg⟩
  · exact h
  · omega

theorem Sub_step (st : PTState) (f d i : Nat) (hs : Sub st f (d + 1))
    (hodd : ¬ st.mem f i % 2 = 0) :
    Sub st ((st.mem f i - 1) / 4096) d ∧ (st.mem f i - 1) / 4096 < st.next := by
  have hok := ptrOk_entry st f (d + 1) i hs (by omega)
  rcases hok with h | ⟨g, hlt, h52, hg⟩
  · exact absurd (by simp [h]) hodd
  have hdec : (st.mem f i - 1) / 4096 = g := entry_form_decode g _ hg
  have hstep : ∀ (p : List Nat), walk st.mem f (i :: p) = walk st.mem g p := by
    intro p
    rw [walk_cons, if_neg hodd, hdec]
  rw [hdec]
  refine ⟨⟨hs.fz, hlt, ?_, ?_, ?_⟩, hlt⟩
  · intro p g2 hl hw j
    exact hs.ptr (i :: p) g2 (by simpa using by omega) (by rw [hstep]; exact hw) j
  · intro p g2 hl hw j
    exact hs.leaf (i :: p) g2 (by simp [hl]) (by rw [hstep]; exact hw) j
  · intro p q g2 hlp hlq hwp hwq
    have := hs.inj (i :: p) (i :: q) g2 (by simp; omega) (by simp; omega)
      (by rw [hstep]; exact hwp) (by rw [hstep]; exact hwq)
    simpa using this

theorem reach_lt (st : PTState) :
    ∀ (p : List Nat) (f d g : Nat), Sub st f d → p.length ≤ d →
      walk st.mem f p = some g → g < st.next
  | [], f, d, g, hs, _, hw => by
    rw [walk_nil] at hw; cases hw; exact hs.fl
  | i :: p, f, d, g, hs, hl, hw => by
    cases d with
    | zero => simp at hl
    | succ d2 =>
      rw [walk_cons] at hw
      by_cases he : st.mem f i % 2 = 0
      · rw [if_pos he] at hw; cases hw
      · rw [if_neg he] at hw
        have hss := Sub_step st f d2 i hs he
        exact reach_lt st p _ d2 g hss.1 (by simpa using hl) hw

theorem destroyGo_break (st : PTState) (lf : Nat) :
    ∀ (is : List Nat) (f d : Nat), Sub st f d → is.length = d →
      walk st.mem f is = none → destroyGo lf st.mem f is = st.mem
  | [], f, d, _, _, hw => by rw [walk_nil] at hw; cases hw
  | i :: is, f, d, hs, hl, hw => by
    cases d with
    | zero => simp at hl
    | succ d2 =>
      rw [walk_cons] at hw
      by_cases he : st.mem f i % 2 = 0
      · have hok := ptrOk_entry st f (d2 + 1) i hs (by omega)
        have h0 : st.mem f i = 0 := ptrOk_zero_of_even st.next _ hok he
        simp only [destroyGo, if_pos he]
        exact write_id st.mem f i h0
      · rw [if_neg he] at hw
        have hss := Sub_step st f d2 i hs he
        simp only [destroyGo, if_neg he]
        exact destroyGo_break st lf is _ d2 hss.1 (by simpa using hl) hw

theorem destroyGo_complete (lf : Nat) (m : Mem) :
    ∀ (is : List Nat) (f F : Nat), walk m f is = some F →
      destroyGo lf m f is = write m F lf 0
  | [], f, F, hw => by
    rw [walk_nil] at hw
    cases hw
    rfl
  | i :: is, f, F, hw => by
    rw [walk_cons] at hw
    by_cases he : m f i % 2 = 0
    · rw [if_pos he] at hw; cases hw
    · rw [if_neg he] at hw
      simp only [destroyGo, if_neg he]
      exact destroyGo_complete lf m is _ F hw

theorem walk_write_leaf (st : PTState) (root d : Nat) (hs : Sub st root d)
    (is : List Nat) (hlen : is.length = d) (F lf v : Nat)
    (hw : walk st.mem root is = some F) :
    walk (write st.mem F lf v) root is = some F := by
  have hcongr : walk (write st.mem F lf v) root is = walk st.mem root is := by
    apply walk_congrOn
    intro q x r g hq hwq
    have hql : q.length + (r.length + 1) = d := by
      rw [← hlen, hq]
      simp
    apply write_ne
    left
    intro hgF
    subst hgF
    have heq := hs.inj q is g (by omega) (by omega) hwq hw
    rw [heq] at hql
    omega
  rw [hcongr, hw]

theorem walk_mem0 (f : Nat) (p : List Nat) (g : Nat) (h : walk mem0 f p = some g) :
    p = [] ∧ g = f := by
  cases p with
  | nil =>
    rw [walk_nil] at h
    cases h
    exact ⟨rfl, rfl⟩
  | cons i is => simp [walk_cons, mem0] at h

theorem Inv_st0 : Inv st0 0 := by
  refine ⟨fun g i _ => rfl, by norm_num [st0], ?_, ?_, ?_⟩
  · intro p g _ _ i
    exact Or.inl rfl
  · intro p g _ _ i
    exact Or.inl rfl
  · intro p q g _ _ hp hq
    have h1 := walk_mem0 0 p g hp
    have h2 := walk_mem0 0 q g hq
    rw [h1.1, h2.1]

theorem ptrOk_mono (n n2 e : Nat) (h : n ≤ n2) (hp : ptrOk n e) : ptrOk n2 e := by
  rcases hp with h0 | ⟨g, h1, h2, h3⟩
  · exact Or.inl h0
  · exact Or.inr ⟨g, by omega, h2, h3⟩

theorem walk_zero_rows (m : Mem) (f : Nat) (hz : ∀ x, m f x = 0) :
    ∀ (p : List Nat) (g : Nat), walk m f p = some g → p = [] ∧ g = f := by
  intro p g hp
  cases p with
  | nil =>
    rw [walk_nil] at hp
    cases hp
    exact ⟨rfl, rfl⟩
  | cons i is => rw [walk_cons, hz i, if_pos (by norm_num)] at hp; cases hp

theorem queryA_zero_rows (m : Mem) (f : Nat) (hz : ∀ x, m f x = 0)
    (p : List Nat) (lg : Nat) : queryA m f p lg = none := by
  cases p with
  | nil => rw [queryA_nil, hz lg]; norm_num
  | cons i is => rw [queryA_cons, hz i, if_pos (by norm_num)]

theorem offside (st : PTState) (m2 : Mem) (f d i : Nat)
    (hfrow : ∀ x, x ≠ i → m2 f x = st.mem f x)
    (hgrow : ∀ j p g, j ≠ i → p.length ≤ d → walk st.mem f (j :: p) = some g →
      ∀ x, m2 g x = st.mem g x)
    (j : Nat) (hj : j ≠ i) (p : List Nat) (hp : p.length ≤ d) :
    walk m2 f (j :: p) = walk st.mem f (j :: p) ∧
      ∀ lg, queryA m2 f (j :: p) lg = queryA st.mem f (j :: p) lg := by
  have H : ∀ q x r g, j :: p = q ++ x :: r → walk st.mem f q = some g →
      m2 g x = st.mem g x := by
    intro q x r g hq hwq
    cases q with
    | nil =>
      simp only [List.nil_append, List.cons.injEq] at hq
      rw [walk_nil] at hwq
      cases hwq
      exact hfrow x (by rw [← hq.1]; exact hj)
    | cons q0 q1 =>
      simp only [List.cons_append, List.cons.injEq] at hq
      have hlen : q1.length ≤ d := by
        have hple : p.length = q1.length + (r.length + 1) := by
          rw [hq.2]
          simp
        omega
      rw [← hq.1] at hwq
      exact hgrow j q1 g hj hlen hwq x
  refine ⟨walk_congrOn st.mem m2 (j :: p) f H, fun lg => ?_⟩
  exact queryA_congrOn st.mem m2 (j :: p) f lg H
    (fun g hw => hgrow j p g hj hp hw lg)

theorem store_odd (p : Nat) : ¬ ((p <<< 12 + 1) % 2 ^ 64) % 2 = 0 := by
  rw [store_eq]
  omega

theorem store_shift (p : Nat) : ((p <<< 12 + 1) % 2 ^ 64) >>> 12 = p % 2 ^ 52 := by
  rw [store_eq, Nat.shiftRight_eq_div_pow]
  omega

theorem store_entryOk (p : Nat) : entryOk ((p <<< 12 + 1) % 2 ^ 64) :=
  Or.inr ⟨p % 2 ^ 52, Nat.mod_lt _ (by norm_num), store_eq p⟩

theorem alloc_decode (n : Nat) (hn : n < 2 ^ 52) :
    ((n <<< 12 + 1) % 2 ^ 64 - 1) / 4096 = n := by
  rw [store_eq, Nat.mod_eq_of_lt hn]
  omega

theorem createGo_nil_mem (ppn lf : Nat) (st : PTState) (f : Nat) :
    (createGo ppn lf st f []).mem = write st.mem f lf ((ppn <<< 12 + 1) % 2 ^ 64) :=
  rfl

theorem createGo_nil_next (ppn lf : Nat) (st : PTState) (f : Nat) :
    (createGo ppn lf st f []).next = st.next := rfl

theorem createGo_cons_valid (ppn lf : Nat) (st : PTState) (f i : Nat)
    (is : List Nat) (he : ¬ st.mem f i % 2 = 0) :
    createGo ppn lf st f (i :: is)
      = createGo ppn lf st ((st.mem f i - 1) / 4096) is := by
  simp only [createGo, if_neg he]

theorem createGo_cons_invalid (ppn lf : Nat) (st : PTState) (f i : Nat)
    (is : List Nat) (he : st.mem f i % 2 = 0) :
    createGo ppn lf st f (i :: is)
      = createGo ppn lf
          ⟨write st.mem f i ((st.next <<< 12 + 1) % 2 ^ 64), st.next + 1⟩
          ((write st.mem f i ((st.next <<< 12 + 1) % 2 ^ 64) f i - 1) / 4096) is := by
  simp only [createGo, if_pos he]

theorem SubA_alloc (st : PTState) (f i d : Nat) (hs : Sub st f (d + 1)) :
    Sub ⟨write st.mem f i ((st.next <<< 12 + 1) % 2 ^ 64), st.next + 1⟩ st.next d := by
  have hnef : st.next ≠ f := by
    have := hs.fl
    omega
  have hnfz : ∀ x, write st.mem f i ((st.next <<< 12 + 1) % 2 ^ 64) st.next x = 0 := by
    intro x
    rw [write_ne _ _ _ _ _ _ (Or.inl hnef)]
    exact hs.fz st.next x (le_refl _)
  refine ⟨?_, ?_, ?_, ?_, ?_⟩
  · intro g x hg
    have hg2 : st.next + 1 ≤ g := hg
    have hgf : g ≠ f := by
      have := hs.fl
      omega
    show write st.mem f i ((st.next <<< 12 + 1) % 2 ^ 64) g x = 0
    rw [write_ne _ _ _ _ _ _ (Or.inl hgf)]
    exact hs.fz g x (by omega)
  · show st.next < st.next + 1
    omega
  · intro p g _ hw x
    obtain ⟨_, hgf⟩ := walk_zero_rows _ st.next hnfz p g hw
    show ptrOk (st.next + 1) (write st.mem f i ((st.next <<< 12 + 1) % 2 ^ 64) g x)
    rw [hgf, hnfz x]
    exact Or.inl rfl
  · intro p g _ hw x
    obtain ⟨_, hgf⟩ := walk_zero_rows _ st.next hnfz p g hw
    show entryOk (write st.mem f i ((st.next <<< 12 + 1) % 2 ^ 64) g x)
    rw [hgf, hnfz x]
    exact Or.inl rfl
  · intro p q g _ _ hwp hwq
    obtain ⟨hp, _⟩ := walk_zero_rows _ st.next hnfz p g hwp
    obtain ⟨hq, _⟩ := walk_zero_rows _ st.next hnfz q g hwq
    rw [hp, hq]

theorem master_odd_step (ppn lf i : Nat) (is : List Nat) (st : PTState) (f : Nat)
    (hs : Sub st f (is.length + 1)) (he : ¬ st.mem f i % 2 = 0)
    (IH : MasterConcl ppn lf is st ((st.mem f i - 1) / 4096)) :
    MasterConcl ppn lf (i :: is) st f := by
  obtain ⟨⟨ih1a, ih1b⟩, ih3, ih4, ih5, ih9, ihS⟩ := IH
  have hstepS : ∀ p : List Nat,
      walk st.mem f (i :: p) = walk st.mem ((st.mem f i - 1) / 4096) p := by
    intro p
    rw [walk_cons, if_neg he]
  have F1 : ∀ x,
      (createGo ppn lf st ((st.mem f i - 1) / 4096) is).mem f x = st.mem f x := by
    intro x
    apply ih5 f x hs.fl
    rintro ⟨p, hl, hp⟩
    have hinj := hs.inj [] (i :: p) f (by simp) (by simp; omega) (walk_nil _ _)
      (by rw [hstepS p]; exact hp)
    simp at hinj
  have hgrow : ∀ j p g, j ≠ i → p.length ≤ is.length →
      walk st.mem f (j :: p) = some g →
      ∀ x, (createGo ppn lf st ((st.mem f i - 1) / 4096) is).mem g x = st.mem g x := by
    intro j p g hj hp hw x
    apply ih5 g x (reach_lt st (j :: p) f (is.length + 1) g hs (by simp; omega) hw)
    rintro ⟨b, hbl, hb⟩
    have hinj := hs.inj (i :: b) (j :: p) g (by simp; omega) (by simp; omega)
      (by rw [hstepS b]; exact hb) hw
    simp only [List.cons.injEq] at hinj
    exact hj hinj.1.symm
  have hoff := offside st (createGo ppn lf st ((st.mem f i - 1) / 4096) is).mem
    f is.length i (fun x _ => F1 x) hgrow
  have hstepP : ∀ p : List Nat,
      walk (createGo ppn lf st ((st.mem f i - 1) / 4096) is).mem f (i :: p)
        = walk (createGo ppn lf st ((st.mem f i - 1) / 4096) is).mem
            ((st.mem f i - 1) / 4096) p := by
    intro p
    rw [walk_cons, F1 i, if_neg he]
  have hqstepP : ∀ (p : List Nat) (lg : Nat),
      queryA (createGo ppn lf st ((st.mem f i - 1) / 4096) is).mem f (i :: p) lg
        = queryA (createGo ppn lf st ((st.mem f i - 1) / 4096) is).mem
            ((st.mem f i - 1) / 4096) p lg := by
    intro p lg
    rw [queryA_cons, F1 i, if_neg he]
  have hrec : createGo ppn lf st f (i :: is)
      = createGo ppn lf st ((st.mem f i - 1) / 4096) is :=
    createGo_cons_valid ppn lf st f i is he
  unfold MasterConcl
  rw [hrec]
  refine ⟨⟨ih1a, by simp only [List.length_cons]; omega⟩, ?_, ?_, ?_, ?_, ?_⟩
  · rw [hqstepP is lf]
    exact ih3
  · intro js lg hjs hne
    cases js with
    | nil => simp at hjs
    | cons j js2 =>
      simp only [List.length_cons] at hjs
      by_cases hj : j = i
      · have hne2 : js2 ≠ is ∨ lg ≠ lf := by
          rcases hne with h | h
          · exact Or.inl (fun hx => h (by rw [hj, hx]))
          · exact Or.inr h
        rw [hj, hqstepP js2 lg, queryA_cons, if_neg he]
        exact ih4 js2 lg (by omega) hne2
      · exact (hoff j hj js2 (by omega)).2 lg
  · intro g j0 hg hnr
    apply ih5 g j0 hg
    rintro ⟨p, hl, hp⟩
    exact hnr ⟨i :: p, by simp; omega, by rw [hstepS p]; exact hp⟩
  · rintro g ⟨p, hl, hp⟩
    cases p with
    | nil =>
      rw [walk_nil] at hp
      cases hp
      exact Or.inl ⟨[], by simp, walk_nil _ _⟩
    | cons j p2 =>
      simp only [List.length_cons] at hl
      by_cases hj : j = i
      · rw [hj, hstepP p2] at hp
        rcases ih9 g ⟨p2, by omega, hp⟩ with ⟨b, hbl, hb⟩ | hfr
        · exact Or.inl ⟨i :: b, by simp; omega, by rw [hstepS b]; exact hb⟩
        · exact Or.inr hfr
      · rw [(hoff j hj p2 (by omega)).1] at hp
        exact Or.inl ⟨j :: p2, by simp; omega, hp⟩
  · refine ⟨ihS.fz, lt_of_lt_of_le hs.fl ih1a, ?_, ?_, ?_⟩
    · intro p g hl hw j0
      cases p with
      | nil =>
        rw [walk_nil] at hw
        cases hw
        rw [F1 j0]
        exact ptrOk_mono st.next _ _ ih1a (hs.ptr [] f (by simp) (walk_nil _ _) j0)
      | cons j p2 =>
        simp only [List.length_cons] at hl
        by_cases hj : j = i
        · rw [hj, hstepP p2] at hw
          exact ihS.ptr p2 g (by omega) hw j0
        · rw [(hoff j hj p2 (by omega)).1] at hw
          rw [hgrow j p2 g hj (by omega) hw j0]
          exact ptrOk_mono st.next _ _ ih1a (hs.ptr (j :: p2) g (by simp; omega) hw j0)
    · intro p g hl hw j0
      cases p with
      | nil => simp at hl
      | cons j p2 =>
        simp only [List.length_cons] at hl
        by_cases hj : j = i
        · rw [hj, hstepP p2] at hw
          exact ihS.leaf p2 g (by omega) hw j0
        · rw [(hoff j hj p2 (by omega)).1] at hw
          rw [hgrow j p2 g hj (by omega) hw j0]
          exact hs.leaf (j :: p2) g (by simp; omega) hw j0
    · intro p q g hlp hlq hwp hwq
      cases p with
      | nil =>
        rw [walk_nil] at hwp
        cases hwp
        cases q with
        | nil => rfl
        | cons k q2 =>
          simp only [List.length_cons] at hlq
          by_cases hk : k = i
          · rw [hk, hstepP q2] at hwq
            rcases ih9 f ⟨q2, by omega, hwq⟩ with ⟨b, hbl, hb⟩ | hfr
            · have hinj := hs.inj [] (i :: b) f (by simp) (by simp; omega)
                (walk_nil _ _) (by rw [hstepS b]; exact hb)
              simp at hinj
            · exact absurd hs.fl (by omega)
          · rw [(hoff k hk q2 (by omega)).1] at hwq
            have hinj := hs.inj [] (k :: q2) f (by simp) (by simp; omega)
              (walk_nil _ _) hwq
            simp at hinj
      | cons j p2 =>
        simp only [List.length_cons] at hlp
        cases q with
        | nil =>
          rw [walk_nil] at hwq
          cases hwq
          by_cases hj : j = i
          · rw [hj, hstepP p2] at hwp
            rcases ih9 f ⟨p2, by omega, hwp⟩ with ⟨b, hbl, hb⟩ | hfr
            · have hinj := hs.inj [] (i :: b) f (by simp) (by simp; omega)
                (walk_nil _ _) (by rw [hstepS b]; exact hb)
              simp at hinj
            · exact absurd hs.fl (by omega)
          · rw [(hoff j hj p2 (by omega)).1] at hwp
            have hinj := hs.inj [] (j :: p2) f (by simp) (by simp; omega)
              (walk_nil _ _) hwp
            simp at hinj
        | cons k q2 =>
          simp only [List.length_cons] at hlq
          by_cases hj : j = i
          · rw [hj, hstepP p2] at hwp
            by_cases hk : k = i
            · rw [hk, hstepP q2] at hwq
              rw [hj, hk, ihS.inj p2 q2 g (by omega) (by omega) hwp hwq]
            · rw [(hoff k hk q2 (by omega)).1] at hwq
              have hglt : g < st.next :=
                reach_lt st (k :: q2) f (is.length + 1) g hs (by simp; omega) hwq
              rcases ih9 g ⟨p2, by omega, hwp⟩ with ⟨b, hbl, hb⟩ | hfr
              · have hinj := hs.inj (i :: b) (k :: q2) g (by simp; omega)
                  (by simp; omega) (by rw [hstepS b]; exact hb) hwq
                simp only [List.cons.injEq] at hinj
                exact absurd hinj.1.symm hk
              · exact absurd hglt (by omega)
          · rw [(hoff j hj p2 (by omega)).1] at hwp
            by_cases hk : k = i
            · rw [hk, hstepP q2] at hwq
              have hglt : g < st.next :=
                reach_lt st (j :: p2) f (is.length + 1) g hs (by simp; omega) hwp
              rcases ih9 g ⟨q2, by omega, hwq⟩ with ⟨b, hbl, hb⟩ | hfr
              · have hinj := hs.inj (i :: b) (j :: p2) g (by simp; omega)
                  (by simp; omega) (by rw [hstepS b]; exact hb) hwp
                simp only [List.cons.injEq] at hinj
                exact absurd hinj.1.symm hj
              · exact absurd hglt (by omega)
            · rw [(hoff k hk q2 (by omega)).1] at hwq
              exact hs.inj (j :: p2) (k :: q2) g (by simp; omega) (by simp; omega)
                hwp hwq

theorem master_even_step (ppn lf i : Nat) (is : List Nat) (st : PTState) (f : Nat)
    (hs : Sub st f (is.length + 1)) (hcap : st.next + (is.length + 1) ≤ 2 ^ 52)
    (he : st.mem f i % 2 = 0)
    (IH : MasterConcl ppn lf is
      ⟨write st.mem f i ((st.next <<< 12 + 1) % 2 ^ 64), st.next + 1⟩ st.next) :
    MasterConcl ppn lf (i :: is) st f := by
  set m1 : Mem := write st.mem f i ((st.next <<< 12 + 1) % 2 ^ 64) with hm1
  set P : PTState := createGo ppn lf ⟨m1, st.next + 1⟩ st.next is with hP
  obtain ⟨⟨ih1a, ih1b⟩, ih3, ih4, ih5, ih9, ihS⟩ := IH
  have ih1a2 : st.next + 1 ≤ P.next := ih1a
  have ih1b2 : P.next ≤ st.next + 1 + is.length := ih1b
  have h52 : st.next < 2 ^ 52 := by omega
  have hnef : st.next ≠ f := by
    have := hs.fl
    omega
  have hnfz : ∀ x, m1 st.next x = 0 := by
    intro x
    rw [hm1, write_ne _ _ _ _ _ _ (Or.inl hnef)]
    exact hs.fz st.next x (le_refl _)
  have hfi1 : m1 f i = (st.next <<< 12 + 1) % 2 ^ 64 := by
    rw [hm1]
    exact write_same _ _ _ _
  have hdec : (m1 f i - 1) / 4096 = st.next := by
    rw [hfi1]
    exact alloc_decode st.next h52
  have hrec : createGo ppn lf st f (i :: is) = P := by
    rw [hP, createGo_cons_invalid ppn lf st f i is he, ← hm1, hdec]
  have hpres : ∀ g, g < st.next → ∀ x, P.mem g x = m1 g x := by
    intro g hg x
    apply ih5 g x (show g < st.next + 1 by omega)
    rintro ⟨p, _, hp⟩
    have hz := walk_zero_rows m1 st.next hnfz p g hp
    omega
  have hffull : ∀ x, P.mem f x = m1 f x := fun x => hpres f hs.fl x
  have hfi : P.mem f i = (st.next <<< 12 + 1) % 2 ^ 64 := by
    rw [hffull i, hfi1]
  have F1e : ∀ x, x ≠ i → P.mem f x = st.mem f x := by
    intro x hx
    rw [hffull x, hm1]
    exact write_ne _ _ _ _ _ _ (Or.inr hx)
  have hgrowe : ∀ j p g, j ≠ i → p.length ≤ is.length →
      walk st.mem f (j :: p) = some g → ∀ x, P.mem g x = st.mem g x := by
    intro j p g hj hp hw x
    have hgf : g ≠ f := by
      intro hgf
      rw [hgf] at hw
      have hinj := hs.inj [] (j :: p) f (by simp) (by simp; omega) (walk_nil _ _) hw
      simp at hinj
    have hglt : g < st.next :=
      reach_lt st (j :: p) f (is.length + 1) g hs (by simp; omega) hw
    rw [hpres g hglt x, hm1]
    exact write_ne _ _ _ _ _ _ (Or.inl hgf)
  have hoffe := offside st P.mem f is.length i F1e hgrowe
  have hstepPe : ∀ p : List Nat, walk P.mem f (i :: p) = walk P.mem st.next p := by
    intro p
    rw [walk_cons, hfi, if_neg (store_odd st.next), alloc_decode st.next h52]
  have hqstepPe : ∀ (p : List Nat) (lg : Nat),
      queryA P.mem f (i :: p) lg = queryA P.mem st.next p lg := by
    intro p lg
    rw [queryA_cons, hfi, if_neg (store_odd st.next), alloc_decode st.next h52]
  unfold MasterConcl
  rw [hrec]
  refine ⟨⟨by omega, by simp only [List.length_cons]; omega⟩, ?_, ?_, ?_, ?_, ?_⟩
  · rw [hqstepPe is lf]
    exact ih3
  · intro js lg hjs hne
    cases js with
    | nil => simp at hjs
    | cons j js2 =>
      simp only [List.length_cons] at hjs
      by_cases hj : j = i
      · have hne2 : js2 ≠ is ∨ lg ≠ lf := by
          rcases hne with h | h
          · exact Or.inl (fun hx => h (by rw [hj, hx]))
          · exact Or.inr h
        rw [hj, hqstepPe js2 lg, ih4 js2 lg (by omega) hne2,
          queryA_zero_rows _ st.next hnfz js2 lg, queryA_cons, if_pos he]
      · exact (hoffe j hj js2 (by omega)).2 lg
  · intro g j0 hg hnr
    have hgf : g ≠ f := by
      intro hgf
      exact hnr ⟨[], by simp, by rw [hgf]; exact walk_nil _ _⟩
    rw [hpres g hg j0, hm1]
    exact write_ne _ _ _ _ _ _ (Or.inl hgf)
  · rintro g ⟨p, hl, hp⟩
    cases p with
    | nil =>
      rw [walk_nil] at hp
      cases hp
      exact Or.inl ⟨[], by simp, walk_nil _ _⟩
    | cons j p2 =>
      simp only [List.length_cons] at hl
      by_cases hj : j = i
      · rw [hj, hstepPe p2] at hp
        rcases ih9 g ⟨p2, by omega, hp⟩ with ⟨b, _, hb⟩ | ⟨hge, hlt⟩
        · have hz := walk_zero_rows m1 st.next hnfz b g hb
          exact Or.inr ⟨by omega, by omega⟩
        · have hge2 : st.next + 1 ≤ g := hge
          exact Or.inr ⟨by omega, hlt⟩
      · rw [(hoffe j hj p2 (by omega)).1] at hp
        exact Or.inl ⟨j :: p2, by simp; omega, hp⟩
  · refine ⟨ihS.fz, by have := hs.fl; omega, ?_, ?_, ?_⟩
    · intro p g hl hw j0
      cases p with
      | nil =>
        rw [walk_nil] at hw
        cases hw
        by_cases hji : j0 = i
        · rw [hji, hfi]
          exact Or.inr ⟨st.next, by omega, h52, by rw [store_eq, Nat.mod_eq_of_lt h52]⟩
        · rw [F1e j0 hji]
          exact ptrOk_mono st.next _ _ (by omega)
            (hs.ptr [] f (by simp) (walk_nil _ _) j0)
      | cons j p2 =>
        simp only [List.length_cons] at hl
        by_cases hj : j = i
        · rw [hj, hstepPe p2] at hw
          exact ihS.ptr p2 g (by omega) hw j0
        · rw [(hoffe j hj p2 (by omega)).1] at hw
          rw [hgrowe j p2 g hj (by omega) hw j0]
          exact ptrOk_mono st.next _ _ (by omega)
            (hs.ptr (j :: p2) g (by simp; omega) hw j0)
    · intro p g hl hw j0
      cases p with
      | nil => simp at hl
      | cons j p2 =>
        simp only [List.length_cons] at hl
        by_cases hj : j = i
        · rw [hj, hstepPe p2] at hw
          exact ihS.leaf p2 g (by omega) hw j0
        · rw [(hoffe j hj p2 (by omega)).1] at hw
          rw [hgrowe j p2 g hj (by omega) hw j0]
          exact hs.leaf (j :: p2) g (by simp; omega) hw j0
    · intro p q g hlp hlq hwp hwq
      cases p with
      | nil =>
        rw [walk_nil] at hwp
        cases hwp
        cases q with
        | nil => rfl
        | cons k q2 =>
          simp only [List.length_cons] at hlq
          by_cases hk : k = i
          · rw [hk, hstepPe q2] at hwq
            rcases ih9 f ⟨q2, by omega, hwq⟩ with ⟨b, _, hb⟩ | ⟨hge, _⟩
            · have hz := walk_zero_rows m1 st.next hnfz b f hb
              have := hs.fl
              omega
            · have hge2 : st.next + 1 ≤ f := hge
              have := hs.fl
              omega
          · rw [(hoffe k hk q2 (by omega)).1] at hwq
            have hinj := hs.inj [] (k :: q2) f (by simp) (by simp; omega)
              (walk_nil _ _) hwq
            simp at hinj
      | cons j p2 =>
        simp only [List.length_cons] at hlp
        cases q with
        | nil =>
          rw [walk_nil] at hwq
          cases hwq
          by_cases hj : j = i
          · rw [hj, hstepPe p2] at hwp
            rcases ih9 f ⟨p2, by omega, hwp⟩ with ⟨b, _, hb⟩ | ⟨hge, _⟩
            · have hz := walk_zero_rows m1 st.next hnfz b f hb
              have := hs.fl
              omega
            · have hge2 : st.next + 1 ≤ f := hge
              have := hs.fl
              omega
          · rw [(hoffe j hj p2 (by omega)).1] at hwp
            have hinj := hs.inj [] (j :: p2) f (by simp) (by simp; omega)
              (walk_nil _ _) hwp
            simp at hinj
        | cons k q2 =>
          simp only [List.length_cons] at hlq
          by_cases hj : j = i
          · rw [hj, hstepPe p2] at hwp
            by_cases hk : k = i
            · rw [hk, hstepPe q2] at hwq
              rw [hj, hk, ihS.inj p2 q2 g (by omega) (by omega) hwp hwq]
            · rw [(hoffe k hk q2 (by omega)).1] at hwq
              have hglt : g < st.next :=
                reach_lt st (k :: q2) f (is.length + 1) g hs (by simp; omega) hwq
              rcases ih9 g ⟨p2, by omega, hwp⟩ with ⟨b, _, hb⟩ | ⟨hge, _⟩
              · have hz := walk_zero_rows m1 st.next hnfz b g hb
                omega
              · have hge2 : st.next + 1 ≤ g := hge
                omega
          · rw [(hoffe j hj p2 (by omega)).1] at hwp
            by_cases hk : k = i
            · rw [hk, hstepPe q2] at hwq
              have hglt : g < st.next :=
                reach_lt st (j :: p2) f (is.length + 1) g hs (by simp; omega) hwp
              rcases ih9 g ⟨q2, by omega, hwq⟩ with ⟨b, _, hb⟩ | ⟨hge, _⟩
              · have hz := walk_zero_rows m1 st.next hnfz b g hb
                omega
              · have hge2 : st.next + 1 ≤ g := hge
                omega
            · rw [(hoffe k hk q2 (by omega)).1] at hwq
              exact hs.inj (j :: p2) (k :: q2) g (by simp; omega) (by simp; omega)
                hwp hwq

theorem createGo_master (ppn lf : Nat) :
    ∀ (is : List Nat) (st : PTState) (f : Nat),
      Sub st f is.length → st.next + is.length ≤ 2 ^ 52 →
      MasterConcl ppn lf is st f
  | [], st, f, hs, _ => by
    have hmem := createGo_nil_mem ppn lf st f
    have hnext := createGo_nil_next ppn lf st f
    unfold MasterConcl
    rw [hmem, hnext]
    refine ⟨⟨le_refl _, by simp⟩, ?_, ?_, ?_, ?_, ?_⟩
    · rw [queryA_nil, write_same, if_pos (by rw [store_eq]; omega), store_shift]
    · intro js lg hjs hne
      have hjs0 : js = [] := List.length_eq_zero.mp hjs
      subst hjs0
      rcases hne with h | h
      · exact absurd rfl h
      · rw [queryA_nil, queryA_nil, write_ne _ _ _ _ _ _ (Or.inr h)]
    · intro g j hg hnr
      have hgf : g ≠ f := fun hgf =>
        hnr ⟨[], by simp, by rw [hgf]; exact walk_nil _ _⟩
      exact write_ne _ _ _ _ _ _ (Or.inl hgf)
    · rintro g ⟨p, hl, hp⟩
      have hp0 : p = [] := List.length_eq_zero.mp (Nat.le_zero.mp hl)
      subst hp0
      rw [walk_nil] at hp
      cases hp
      exact Or.inl ⟨[], by simp, walk_nil _ _⟩
    · refine ⟨?_, hs.fl, ?_, ?_, ?_⟩
      · intro g x hg
        have hgf : g ≠ f := by
          have := hs.fl
          omega
        show write st.mem f lf ((ppn <<< 12 + 1) % 2 ^ 64) g x = 0
        rw [write_ne _ _ _ _ _ _ (Or.inl hgf)]
        exact hs.fz g x hg
      · intro p g hl hw x
        simp at hl
      · intro p g hl hw x
        have hp0 : p = [] := List.length_eq_zero.mp hl
        subst hp0
        rw [walk_nil] at hw
        cases hw
        show entryOk (write st.mem f lf ((ppn <<< 12 + 1) % 2 ^ 64) f x)
        by_cases hx : x = lf
        · rw [hx, write_same]
          exact store_entryOk ppn
        · rw [write_ne _ _ _ _ _ _ (Or.inr hx)]
          exact hs.leaf [] f rfl (walk_nil _ _) x
      · intro p q g hlp hlq _ _
        rw [List.length_eq_zero.mp (Nat.le_zero.mp hlp),
          List.length_eq_zero.mp (Nat.le_zero.mp hlq)]
  | i :: is, st, f, hs, hcap => by
    have hcap2 : st.next + (is.length + 1) ≤ 2 ^ 52 := hcap
    by_cases he : st.mem f i % 2 = 0
    · exact master_even_step ppn lf i is st f hs hcap2 he
        (createGo_master ppn lf is
          ⟨write st.mem f i ((st.next <<< 12 + 1) % 2 ^ 64), st.next + 1⟩ st.next
          (SubA_alloc st f i is.length hs)
          (show st.next + 1 + is.length ≤ 2 ^ 52 by omega))
    · exact master_odd_step ppn lf i is st f hs he
        (createGo_master ppn lf is st ((st.mem f i - 1) / 4096)
          (Sub_step st f is.length i hs he).1 (by omega))

theorem roundtrip_aux (nm : Nat) (st : PTState) (root vpn ppn : Nat)
    (hs : Inv st root) (hcap : st.next + 4 ≤ 2 ^ 52) (hppn : ppn < 2 ^ 52)
    (hne : ppn ≠ nm) :
    page_table_query nm (page_table_update nm st root vpn ppn).mem root vpn = ppn := by
  have hupd : page_table_update nm st root vpn ppn
      = createGo ppn (idx vpn 0) st root (ixs vpn) := by
    simp [page_table_update, hne, create_virtual_memory_mapping]
  obtain ⟨_, h3, _, _, _, _⟩ :=
    createGo_master ppn (idx vpn 0) (ixs vpn) st root hs hcap
  rw [hupd, query_link, h3]
  show ppn % 2 ^ 52 = ppn
  exact Nat.mod_eq_of_lt hppn

theorem create_Inv_aux (nm : Nat) (st : PTState) (root vpn ppn : Nat)
    (hs : Inv st root) (hcap : st.next + 4 ≤ 2 ^ 52) (hne : ppn ≠ nm) :
    Inv (page_table_update nm st root vpn ppn) root ∧
      (page_table_update nm st root vpn ppn).next ≤ st.next + 4 := by
  have hupd : page_table_update nm st root vpn ppn
      = createGo ppn (idx vpn 0) st root (ixs vpn) := by
    simp [page_table_update, hne, create_virtual_memory_mapping]
  obtain ⟨⟨_, hb⟩, _, _, _, _, hSub⟩ :=
    createGo_master ppn (idx vpn 0) (ixs vpn) st root hs hcap
  rw [hupd]
  exact ⟨hSub, hb⟩

/-- C2: for every root table R and virtual page number v, after
page_table_update(R, v, NO_MAPPING), page_table_query(R, v) returns
NO_MAPPING, whether or not v was previously mapped. -/
theorem claim_C2_unmap_clears (nm : Nat) (st : PTState) (root vpn : Nat)
    (hs : Inv st root) :
    page_table_query nm (page_table_update nm st root vpn nm).mem root vpn = nm := by
  have hupd : (page_table_update nm st root vpn nm).mem
      = destroyGo (idx vpn 0) st.mem root (ixs vpn) := by
    simp [page_table_update, destroy_virtual_memory_mapping]
  rw [hupd]
  rcases hw : walk st.mem root (ixs vpn) with _ | F
  · rw [destroyGo_break st (idx vpn 0) (ixs vpn) root 4 hs rfl hw]
    simp [page_table_query, hw]
  · rw [destroyGo_complete (idx vpn 0) st.mem (ixs vpn) root F hw]
    have hw2 := walk_write_leaf st root 4 hs (ixs vpn) rfl F (idx vpn 0) 0 hw
    simp [page_table_query, hw2, write_same]

/-- Closed instance of C2 on a concrete state: unmapping VPN 0x1000 in the
fresh table leaves it unmapped. -/
theorem claim_C2_unmap_clears_witness :
    Inv st0 0 ∧
      page_table_query (2 ^ 64 - 1)
        (page_table_update (2 ^ 64 - 1) st0 0 4096 (2 ^ 64 - 1)).mem 0 4096
      = 2 ^ 64 - 1 :=
  ⟨Inv_st0, claim_C2_unmap_clears (2 ^ 64 - 1) st0 0 4096 Inv_st0⟩

/-- C3: update(R, v, NO_MAPPING) is idempotent on the table state, and
when the pointer walk for v hits an invalid entry the destroy operation
leaves the memory unchanged (a no-op, not an error). -/
theorem claim_C3_idempotent_unmap (nm : Nat) (st : PTState) (root vpn : Nat)
    (hs : Inv st root) :
    page_table_update nm (page_table_update nm st root vpn nm) root vpn nm
        = page_table_update nm st root vpn nm
      ∧ (walk st.mem root (ixs vpn) = none →
          (page_table_update nm st root vpn nm).mem = st.mem) := by
  have hbreak : walk st.mem root (ixs vpn) = none →
      destroyGo (idx vpn 0) st.mem root (ixs vpn) = st.mem :=
    destroyGo_break st (idx vpn 0) (ixs vpn) root 4 hs rfl
  have hgen : page_table_update nm st root vpn nm
      = ⟨destroyGo (idx vpn 0) st.mem root (ixs vpn), st.next⟩ := by
    simp [page_table_update, destroy_virtual_memory_mapping]
  have hgen2 : page_table_update nm
        ⟨destroyGo (idx vpn 0) st.mem root (ixs vpn), st.next⟩ root vpn nm
      = ⟨destroyGo (idx vpn 0) (destroyGo (idx vpn 0) st.mem root (ixs vpn))
          root (ixs vpn), st.next⟩ := by
    simp [page_table_update, destroy_virtual_memory_mapping]
  constructor
  · rw [hgen, hgen2]
    rcases hw : walk st.mem root (ixs vpn) with _ | F
    · simp only [hbreak hw]
    · have hd1 : destroyGo (idx vpn 0) st.mem root (ixs vpn)
          = write st.mem F (idx vpn 0) 0 :=
        destroyGo_complete (idx vpn 0) st.mem (ixs vpn) root F hw
      have hw2 := walk_write_leaf st root 4 hs (ixs vpn) rfl F (idx vpn 0) 0 hw
      have hd2 := destroyGo_complete (idx vpn 0)
        (write st.mem F (idx vpn 0) 0) (ixs vpn) root F hw2
      simp only [hd1, hd2, write_write]
  · intro hw
    simpa [page_table_update, destroy_virtual_memory_mapping] using hbreak hw

/-- Closed instance of C3: double unmap of VPN 5 on the fresh table equals
a single unmap, and the unmap of the never-mapped VPN 5 is a no-op. -/
theorem claim_C3_idempotent_unmap_witness :
    Inv st0 0 ∧
      (page_table_update 0 (page_table_update 0 st0 0 5 0) 0 5 0
          = page_table_update 0 st0 0 5 0
        ∧ (walk st0.mem 0 (ixs 5) = none →
            (page_table_update 0 st0 0 5 0).mem = st0.mem)) :=
  ⟨Inv_st0, claim_C3_idempotent_unmap 0 st0 0 5 Inv_st0⟩

/-- C9: destroy deallocates nothing (the allocation counter is untouched)
and the only entry it can change is the terminal level-5 entry on the
walked path, which it clears to zero; valid pointer entries at levels
1 to 4 are never modified. -/
theorem claim_C9_destroy_frame (nm : Nat) (st : PTState) (root vpn : Nat)
    (hs : Inv st root) :
    (page_table_update nm st root vpn nm).next = st.next ∧
      ∀ g j, (page_table_update nm st root vpn nm).mem g j ≠ st.mem g j →
        walk st.mem root (ixs vpn) = some g ∧ j = idx vpn 0 ∧
          (page_table_update nm st root vpn nm).mem g j = 0 := by
  have hupd : (page_table_update nm st root vpn nm).mem
      = destroyGo (idx vpn 0) st.mem root (ixs vpn) := by
    simp [page_table_update, destroy_virtual_memory_mapping]
  constructor
  · simp [page_table_update]
  · intro g j hne
    rw [hupd] at hne ⊢
    rcases hw : walk st.mem root (ixs vpn) with _ | F
    · rw [destroyGo_break st (idx vpn 0) (ixs vpn) root 4 hs rfl hw] at hne
      exact absurd rfl hne
    · have hd1 : destroyGo (idx vpn 0) st.mem root (ixs vpn)
          = write st.mem F (idx vpn 0) 0 :=
        destroyGo_complete (idx vpn 0) st.mem (ixs vpn) root F hw
      rw [hd1] at hne ⊢
      by_cases hg : g = F
      · subst hg
        by_cases hj : j = idx vpn 0
        · subst hj
          exact ⟨rfl, rfl, write_same _ _ _ _⟩
        · exact absurd (write_ne _ _ _ _ _ _ (Or.inr hj)) hne
      · exact absurd (write_ne _ _ _ _ _ _ (Or.inl hg)) hne

/-- Closed instance of C9: unmapping VPN 3 in the fresh table keeps the
allocator counter and satisfies the frame condition. -/
theorem claim_C9_destroy_frame_witness :
    Inv st0 0 ∧
      ((page_table_update 9 st0 0 3 9).next = st0.next ∧
        ∀ g j, (page_table_update 9 st0 0 3 9).mem g j ≠ st0.mem g j →
          walk st0.mem 0 (ixs 3) = some g ∧ j = idx 3 0 ∧
            (page_table_update 9 st0 0 3 9).mem g j = 0) :=
  ⟨Inv_st0, claim_C9_destroy_frame 9 st0 0 3 Inv_st0⟩

/-- C1: for every root table R, VPN v and PPN p distinct from the
NO_MAPPING sentinel (p being a 52-bit physical page number as fixed by
the entry layout, bits 12 to 63), page_table_update(R, v, p) followed by
page_table_query(R, v) returns p. -/
theorem claim_C1_round_trip (nm : Nat) (st : PTState) (root vpn ppn : Nat)
    (hs : Inv st root) (hcap : st.next + 4 ≤ 2 ^ 52) (hppn : ppn < 2 ^ 52)
    (hne : ppn ≠ nm) :
    page_table_query nm (page_table_update nm st root vpn ppn).mem root vpn = ppn :=
  roundtrip_aux nm st root vpn ppn hs hcap hppn hne

/-- Closed instance of C1: on the fresh table, mapping VPN 0x1000 to
PPN 7 and querying it back yields 7. -/
theorem claim_C1_round_trip_witness :
    Inv st0 0 ∧ st0.next + 4 ≤ 2 ^ 52 ∧ (7 : Nat) < 2 ^ 52 ∧
      (7 : Nat) ≠ 2 ^ 64 - 1 ∧
      page_table_query (2 ^ 64 - 1)
        (page_table_update (2 ^ 64 - 1) st0 0 4096 7).mem 0 4096 = 7 :=
  ⟨Inv_st0, show (1 : Nat) + 4 ≤ 2 ^ 52 by norm_num, by norm_num, by norm_num,
    claim_C1_round_trip (2 ^ 64 - 1) st0 0 4096 7 Inv_st0
      (show (1 : Nat) + 4 ≤ 2 ^ 52 by norm_num) (by norm_num) (by norm_num)⟩

/-- C4 as stated is false: VPNs congruent modulo 2^45 alias to the same
trie path, so mapping v1 = 0 changes the query result of v2 = 2^45 even
though v2 is different from v1. Concrete refutation on the fresh table. -/
theorem claim_C4_counterexample :
    (2 ^ 45 : Nat) ≠ 0 ∧
      page_table_query (2 ^ 64 - 1)
          (page_table_update (2 ^ 64 - 1) st0 0 0 7).mem 0 (2 ^ 45)
        ≠ page_table_query (2 ^ 64 - 1) st0.mem 0 (2 ^ 45) := by
  constructor
  · norm_num
  · have h1 : page_table_query (2 ^ 64 - 1)
        (page_table_update (2 ^ 64 - 1) st0 0 0 7).mem 0 (2 ^ 45) = 7 := by decide
    have h2 : page_table_query (2 ^ 64 - 1) st0.mem 0 (2 ^ 45) = 2 ^ 64 - 1 := by
      decide
    rw [h1, h2]
    norm_num

/-- C4 amended: after page_table_update(R, v1, p1) with p1 distinct from
NO_MAPPING, page_table_query(R, v2) is unchanged for every v2 whose low
45 bits differ from those of v1 (v2 congruent to v1 modulo 2^45 aliases
to the same path and is excluded); this covers in particular every v2
sharing all index groups but the lowest one with v1. -/
theorem claim_C4_non_interference (nm : Nat) (st : PTState) (root v1 v2 p1 : Nat)
    (hs : Inv st root) (hcap : st.next + 4 ≤ 2 ^ 52) (hne : p1 ≠ nm)
    (hv : v2 % 2 ^ 45 ≠ v1 % 2 ^ 45) :
    page_table_query nm (page_table_update nm st root v1 p1).mem root v2
      = page_table_query nm st.mem root v2 := by
  have hupd : page_table_update nm st root v1 p1
      = createGo p1 (idx v1 0) st root (ixs v1) := by
    simp [page_table_update, hne, create_virtual_memory_mapping]
  obtain ⟨_, _, h4, _, _, _⟩ :=
    createGo_master p1 (idx v1 0) (ixs v1) st root hs hcap
  have hdiff : ixs v2 ≠ ixs v1 ∨ idx v2 0 ≠ idx v1 0 := by
    by_contra hcon
    push_neg at hcon
    exact hv ((ixs_eq_iff v2 v1).mp ⟨hcon.1, hcon.2⟩)
  rw [hupd, query_link, query_link,
    h4 (ixs v2) (idx v2 0) (by rw [ixs_length, ixs_length]) hdiff]

/-- Closed instance of the amended C4: mapping VPN 0 does not change the
query of VPN 1 on the fresh table. -/
theorem claim_C4_non_interference_witness :
    Inv st0 0 ∧ st0.next + 4 ≤ 2 ^ 52 ∧ (7 : Nat) ≠ 2 ^ 64 - 1 ∧
      (1 : Nat) % 2 ^ 45 ≠ 0 % 2 ^ 45 ∧
      page_table_query (2 ^ 64 - 1)
          (page_table_update (2 ^ 64 - 1) st0 0 0 7).mem 0 1
        = page_table_query (2 ^ 64 - 1) st0.mem 0 1 :=
  ⟨Inv_st0, show (1 : Nat) + 4 ≤ 2 ^ 52 by norm_num, by norm_num, by norm_num,
    claim_C4_non_interference (2 ^ 64 - 1) st0 0 0 1 7 Inv_st0
      (show (1 : Nat) + 4 ≤ 2 ^ 52 by norm_num) (by norm_num) (by norm_num)⟩

/-- C6: mapping the same VPN twice to two different PPNs (both distinct
from NO_MAPPING) leaves only the second mapping observable: the create
path unconditionally overwrites the level-5 entry. -/
theorem claim_C6_overwrite (nm : Nat) (st : PTState) (root vpn p1 p2 : Nat)
    (hs : Inv st root) (hcap : st.next + 8 ≤ 2 ^ 52)
    (h1 : p1 ≠ nm) (h2 : p2 ≠ nm) (hp2 : p2 < 2 ^ 52) (hpp : p1 ≠ p2) :
    page_table_query nm
      (page_table_update nm (page_table_update nm st root vpn p1) root vpn p2).mem
      root vpn = p2 := by
  obtain ⟨hInv1, hnx1⟩ := create_Inv_aux nm st root vpn p1 hs (by omega) h1
  exact roundtrip_aux nm _ root vpn p2 hInv1 (by omega) hp2 h2

/-- Closed instance of C6: mapping VPN 0x1000 to 7 then to 9, the query
returns 9. -/
theorem claim_C6_overwrite_witness :
    Inv st0 0 ∧ st0.next + 8 ≤ 2 ^ 52 ∧ (7 : Nat) ≠ 2 ^ 64 - 1 ∧
      (9 : Nat) ≠ 2 ^ 64 - 1 ∧ (9 : Nat) < 2 ^ 52 ∧ (7 : Nat) ≠ 9 ∧
      page_table_query (2 ^ 64 - 1)
        (page_table_update (2 ^ 64 - 1)
          (page_table_update (2 ^ 64 - 1) st0 0 4096 7) 0 4096 9).mem 0 4096 = 9 :=
  ⟨Inv_st0, show (1 : Nat) + 8 ≤ 2 ^ 52 by norm_num, by norm_num, by norm_num,
    by norm_num, by norm_num,
    claim_C6_overwrite (2 ^ 64 - 1) st0 0 4096 7 9 Inv_st0
      (show (1 : Nat) + 8 ≤ 2 ^ 52 by norm_num) (by norm_num) (by norm_num)
      (by norm_num) (by norm_num)⟩

/-- C5: the walker inspects only bits 0 to 44 of the VPN: two VPNs that
agree on their low 45 bits follow the identical trie path, so update and
query behave identically on them, on every memory and state. -/
theorem claim_C5_alias_boundary (v1 v2 : Nat) (hv : v1 % 2 ^ 45 = v2 % 2 ^ 45) :
    (∀ (nm : Nat) (m : Mem) (pt : Nat),
        page_table_query nm m pt v1 = page_table_query nm m pt v2)
      ∧ ∀ (nm : Nat) (st : PTState) (pt ppn : Nat),
          page_table_update nm st pt v1 ppn = page_table_update nm st pt v2 ppn := by
  obtain ⟨hixs, hidx⟩ := (ixs_eq_iff v1 v2).mpr hv
  constructor
  · intro nm m pt
    unfold page_table_query
    rw [hixs, hidx]
  · intro nm st pt ppn
    unfold page_table_update destroy_virtual_memory_mapping
      create_virtual_memory_mapping
    rw [hixs, hidx]

/-- Closed instance of C5: VPNs 5 and 5 + 2^45 are interchangeable for
query and update. -/
theorem claim_C5_alias_boundary_witness :
    (5 : Nat) % 2 ^ 45 = (5 + 2 ^ 45) % 2 ^ 45 ∧
      page_table_query 0 mem0 0 5 = page_table_query 0 mem0 0 (5 + 2 ^ 45) ∧
      page_table_update 0 st0 0 5 7 = page_table_update 0 st0 0 (5 + 2 ^ 45) 7 :=
  ⟨by norm_num,
    (claim_C5_alias_boundary 5 (5 + 2 ^ 45) (by norm_num)).1 0 mem0 0,
    (claim_C5_alias_boundary 5 (5 + 2 ^ 45) (by norm_num)).2 0 st0 0 7⟩

theorem querySGo_spec (nm lf : Nat) :
    ∀ (is : List Nat) (m : Mem) (f : Nat),
      (querySGo nm lf m f is).1 = m ∧
        (querySGo nm lf m f is).2 = queryPure nm m f is lf
  | [], m, f => by
    by_cases h : m f lf % 2 = 1
    · simp [querySGo, queryPure, walk_nil, h]
    · simp [querySGo, queryPure, walk_nil, h]
  | i :: is, m, f => by
    by_cases h : m f i % 2 = 0
    · simp [querySGo, queryPure, walk_cons, h]
    · simp only [querySGo, queryPure, walk_cons, if_neg h]
      exact querySGo_spec nm lf is m ((m f i - 1) / 4096)

theorem queryPure_link (nm : Nat) (m : Mem) (pt vpn : Nat) :
    queryPure nm m pt (ixs vpn) (idx vpn 0) = page_table_query nm m pt vpn := by
  unfold queryPure page_table_query
  rcases walk m pt (ixs vpn) with _ | g <;> rfl

/-- C7: page_table_query performs no writes: in the state-threading
rendering queryS of the query walk, the memory is returned unchanged on
every execution path (early abort at any pointer level, invalid terminal
entry, or valid terminal entry), and the value component agrees with
page_table_query. -/
theorem claim_C7_query_pure (nm : Nat) (m : Mem) (pt vpn : Nat) :
    (queryS nm m pt vpn).1 = m
      ∧ (queryS nm m pt vpn).2 = page_table_query nm m pt vpn := by
  obtain ⟨h1, h2⟩ := querySGo_spec nm (idx vpn 0) (ixs vpn) m pt
  exact ⟨h1, by rw [queryS, h2, queryPure_link]⟩

theorem queryIters_le (m : Mem) :
    ∀ (is : List Nat) (f : Nat), queryIters m f is ≤ is.length
  | [], _ => by simp [queryIters]
  | i :: is, f => by
    by_cases h : m f i % 2 = 0
    · simp [queryIters, h]
    · simp only [queryIters, if_neg h, List.length_cons]
      have := queryIters_le m is ((m f i - 1) / 4096)
      omega

theorem destroyIters_le (m : Mem) :
    ∀ (is : List Nat) (f : Nat), destroyIters m f is ≤ is.length
  | [], _ => by simp [destroyIters]
  | i :: is, f => by
    by_cases h : m f i % 2 = 0
    · simp [destroyIters, h]
    · simp only [destroyIters, if_neg h, List.length_cons]
      have := destroyIters_le m is ((m f i - 1) / 4096)
      omega

theorem createGoN_spec (ppn lf : Nat) :
    ∀ (is : List Nat) (st : PTState) (f : Nat),
      (createGoN ppn lf st f is).1 = createGo ppn lf st f is
        ∧ (createGoN ppn lf st f is).2 = is.length
  | [], st, f => by simp [createGoN, createGo]
  | i :: is, st, f => by
    by_cases h : st.mem f i % 2 = 0
    · simp only [createGoN, createGo, if_pos h, List.length_cons]
      have := createGoN_spec ppn lf is
        ⟨write st.mem f i ((st.next <<< 12 + 1) % 2 ^ 64), st.next + 1⟩
        ((write st.mem f i ((st.next <<< 12 + 1) % 2 ^ 64) f i - 1) / 4096)
      exact ⟨this.1, by rw [this.2]; omega⟩
    · simp only [createGoN, createGo, if_neg h, List.length_cons]
      have := createGoN_spec ppn lf is st ((st.mem f i - 1) / 4096)
      exact ⟨this.1, by rw [this.2]; omega⟩

theorem destroyGo_write (lf : Nat) (m : Mem) :
    ∀ (is : List Nat) (f : Nat), ∃ g j, destroyGo lf m f is = write m g j 0
  | [], f => ⟨f, lf, rfl⟩
  | i :: is, f => by
    by_cases h : m f i % 2 = 0
    · exact ⟨f, i, by simp [destroyGo, h]⟩
    · obtain ⟨g, j, hg⟩ := destroyGo_write lf m is ((m f i - 1) / 4096)
      exact ⟨g, j, by simp only [destroyGo, if_neg h]; exact hg⟩

/-- C8: every operation is a bounded walk that always completes: the
query and destroy loops execute at most four iterations (an early exit
still returns a defined result or performs the terminal write), the
create loop executes exactly four iterations on every input, and destroy
always ends with exactly its single terminal store. The operations are
total Lean functions, so termination holds by construction. -/
theorem claim_C8_bounded_walk (nm : Nat) (st : PTState) (m : Mem) (pt vpn ppn : Nat) :
    queryIters m pt (ixs vpn) ≤ 4
      ∧ destroyIters m pt (ixs vpn) ≤ 4
      ∧ (createGoN ppn (idx vpn 0) st pt (ixs vpn)).2 = 4
      ∧ (createGoN ppn (idx vpn 0) st pt (ixs vpn)).1
          = create_virtual_memory_mapping st pt vpn ppn
      ∧ ∃ g j, destroy_virtual_memory_mapping m pt vpn = write m g j 0 := by
  obtain ⟨hc1, hc2⟩ := createGoN_spec ppn (idx vpn 0) (ixs vpn) st pt
  refine ⟨?_, ?_, ?_, ?_, ?_⟩
  · have := queryIters_le m (ixs vpn) pt
    rw [ixs_length] at this
    exact this
  · have := destroyIters_le m (ixs vpn) pt
    rw [ixs_length] at this
    exact this
  · rw [hc2, ixs_length]
  · rw [hc1]
    rfl
  · exact destroyGo_write (idx vpn 0) m (ixs vpn) pt

theorem EntriesOk_write (m : Mem) (f i v : Nat) (hm : EntriesOk m)
    (hv : entryOk v) : EntriesOk (write m f i v) := by
  intro g j
  by_cases hg : g = f
  · by_cases hj : j = i
    · rw [hg, hj, write_same]
      exact hv
    · rw [write_ne _ _ _ _ _ _ (Or.inr hj)]
      exact hm g j
  · rw [write_ne _ _ _ _ _ _ (Or.inl hg)]
    exact hm g j

theorem destroyGo_EntriesOk (lf : Nat) :
    ∀ (is : List Nat) (m : Mem) (f : Nat), EntriesOk m →
      EntriesOk (destroyGo lf m f is)
  | [], m, f, hm => EntriesOk_write m f lf 0 hm (Or.inl rfl)
  | i :: is, m, f, hm => by
    by_cases h : m f i % 2 = 0
    · simp only [destroyGo, if_pos h]
      exact EntriesOk_write m f i 0 hm (Or.inl rfl)
    · simp only [destroyGo, if_neg h]
      exact destroyGo_EntriesOk lf is m ((m f i - 1) / 4096) hm

theorem createGo_EntriesOk (ppn lf : Nat) :
    ∀ (is : List Nat) (st : PTState) (f : Nat), EntriesOk st.mem →
      EntriesOk (createGo ppn lf st f is).mem
  | [], st, f, hm => by
    rw [createGo_nil_mem]
    exact EntriesOk_write st.mem f lf _ hm (store_entryOk ppn)
  | i :: is, st, f, hm => by
    by_cases h : st.mem f i % 2 = 0
    · rw [createGo_cons_invalid ppn lf st f i is h]
      exact createGo_EntriesOk ppn lf is
        ⟨write st.mem f i ((st.next <<< 12 + 1) % 2 ^ 64), st.next + 1⟩ _
        (EntriesOk_write st.mem f i _ hm (store_entryOk st.next))
    · rw [createGo_cons_valid ppn lf st f i is h]
      exact createGo_EntriesOk ppn lf is st _ hm

/-- C10: the all-zero initial table satisfies the entry layout invariant,
page_table_update preserves it (both the create and the destroy branch;
query writes nothing), and consequently an invalid entry is exactly zero
while subtracting 1 from a valid entry clears exactly the valid bit,
i.e. equals the entry with bit 0 masked off (2 * (e / 2)). -/
theorem claim_C10_entry_invariant :
    EntriesOk mem0
      ∧ (∀ (nm : Nat) (st : PTState) (pt vpn ppn : Nat), EntriesOk st.mem →
          EntriesOk (page_table_update nm st pt vpn ppn).mem)
      ∧ (∀ e, entryOk e → e % 2 = 0 → e = 0)
      ∧ (∀ e, entryOk e → e % 2 = 1 → e - 1 = 2 * (e / 2)) := by
  refine ⟨fun _ _ => Or.inl rfl, ?_, ?_, ?_⟩
  · intro nm st pt vpn ppn hm
    by_cases h : ppn = nm
    · have : (page_table_update nm st pt vpn ppn).mem
          = destroyGo (idx vpn 0) st.mem pt (ixs vpn) := by
        simp [page_table_update, h, destroy_virtual_memory_mapping]
      rw [this]
      exact destroyGo_EntriesOk (idx vpn 0) (ixs vpn) st.mem pt hm
    · have : (page_table_update nm st pt vpn ppn).mem
          = (createGo ppn (idx vpn 0) st pt (ixs vpn)).mem := by
        simp [page_table_update, h, create_virtual_memory_mapping]
      rw [this]
      exact createGo_EntriesOk ppn (idx vpn 0) (ixs vpn) st pt hm
  · intro e he hev
    rcases he with h | ⟨n, _, hn⟩
    · exact h
    · omega
  · intro e he hod
    rcases he with h | ⟨n, _, hn⟩
    · omega
    · omega

/-- Closed instance of C10: the fresh table satisfies the invariant, an
update preserves it, and the arithmetic consequences hold at the sample
entry 4097 = (1 << 12) + 1. -/
theorem claim_C10_entry_invariant_witness :
    EntriesOk st0.mem
      ∧ EntriesOk (page_table_update 0 st0 0 5 7).mem
      ∧ entryOk 4097 ∧ (4097 : Nat) % 2 = 1
      ∧ (4097 : Nat) - 1 = 2 * (4097 / 2) :=
  ⟨claim_C10_entry_invariant.1,
    claim_C10_entry_invariant.2.1 0 st0 0 5 7 claim_C10_entry_invariant.1,
    Or.inr ⟨1, by norm_num, by norm_num⟩, by norm_num,
    claim_C10_entry_invariant.2.2.2 4097
      (Or.inr ⟨1, by norm_num, by norm_num⟩) (by norm_num)⟩

end PT
